import Mathlib

set_option autoImplicit false

namespace Goforai

/-! Shallow embedding of the core of the `goforai` repository: the exact-text
Go source editor (`foundation/tools/editfile.go`) and the file-search engine
(`foundation/tools/searchfiles.go` and the parallel variant in the `tools`
package of the unnamed sources).  File contents are modelled as lists of
characters; the Go parser, `gofmt` and the regular-expression engine are
uninterpreted parameters, since the tools only invoke them as black boxes. -/

/-- Content of a file: a Go string/byte slice, modelled as a list of characters. -/
abbrev Content := List Char

/-- Translation of Go `strings.Contains s sub`: whether `sub` occurs as a
contiguous substring of `s` (always true for the empty substring). -/
def containsSub : Content → Content → Bool
  | [], sub => sub.isEmpty
  | s@(_ :: t), sub => if sub.isPrefixOf s then true else containsSub t sub

/-- Auxiliary scan of `countOcc`: walk `s` character by character, keeping a
countdown `skip` of characters still covered by the previously counted
occurrence (after a hit, Go advances the scan by the length of the matched
text; the countdown realises that advance while staying structurally
recursive, hence kernel-computable).  `countOccAux_skip` and `countOcc_cons`
below show this scan satisfies exactly the advance-by-`len sub` recurrence of
`strings.Count`. -/
def countOccAux : Content → Content → Nat → Nat
  | [], _, _ => 0
  | _ :: t, sub, k + 1 => countOccAux t sub k
  | c :: t, sub, 0 =>
    if sub.isPrefixOf (c :: t) then 1 + countOccAux t sub (sub.length - 1)
    else countOccAux t sub 0

/-- Translation of Go `strings.Count s sub`: the number of non-overlapping
occurrences of `sub` in `s`, scanning left to right; for the empty substring
Go returns `1 + len s` (one more than the number of characters). -/
def countOcc (s sub : Content) : Nat :=
  if sub.isEmpty then s.length + 1 else countOccAux s sub 0

/-- Translation of Go `strings.Replace s old new 1`: replace the first
occurrence of `old` in `s` by `new` (for empty `old`, Go inserts `new` at the
front of `s`). -/
def replaceFirst : Content → Content → Content → Content
  | [], old, new => if old.isEmpty then new else []
  | c :: t, old, new =>
    if old.isEmpty then new ++ c :: t
    else if old.isPrefixOf (c :: t) then new ++ (c :: t).drop old.length
    else c :: replaceFirst t old new

/-- Boolean substring test on Lean strings, via `containsSub` on the data. -/
def strContains (s sub : String) : Bool := containsSub s.data sub.data

/-- An ASCII single-quote character, spelled by its code so that the error
messages below stay byte-faithful to the Go format strings. -/
def sq : String := "\x27"

/-! The filesystem model used by the edit tool: an association list from paths
to files, where a file records its content and its permission bits. -/

/-- A file on disk: its byte content together with its permission bits. -/
structure GoFile where
  content : Content
  perm : Nat
deriving DecidableEq, Repr

/-- A filesystem: an association list from paths to files. -/
abbrev Fs := List (String × GoFile)

/-- Reading a path from the filesystem (`os.ReadFile` together with
`os.IsNotExist`): `none` models a nonexistent file. -/
def fsRead : Fs → String → Option GoFile
  | [], _ => none
  | (q, f) :: rest, p => if q = p then some f else fsRead rest p

/-- Replacing the binding of a path (or creating it if absent). -/
def fsUpdate : Fs → String → GoFile → Fs
  | [], p, f => [(p, f)]
  | (q, g) :: rest, p, f =>
    if q = p then (q, f) :: rest else (q, g) :: fsUpdate rest p f

/-- Outcome of the operating-system write in `os.WriteFile`: the call either
succeeds, fails to open the file (target untouched), or fails partway through
the write after `written` bytes have been transferred. -/
inductive WriteOutcome where
  | success
  | openFail
  | writeFail (written : Nat)
deriving DecidableEq, Repr

/-- Model of Go `os.WriteFile name data perm`: it opens the target with
`O_WRONLY|O_CREATE|O_TRUNC` (so the permission argument is applied only when
the file is being created; an existing file keeps its permission bits), then
writes `data`.  A failed open leaves the target untouched; a failure partway
through the write leaves the truncated file holding the prefix of `data`
written so far.  The second component reports whether an error occurred. -/
def osWriteFile (fs : Fs) (p : String) (data : Content) (perm : Nat)
    (w : WriteOutcome) : Fs × Bool :=
  match w with
  | .openFail => (fs, true)
  | .success =>
    match fsRead fs p with
    | some f => (fsUpdate fs p ⟨data, f.perm⟩, false)
    | none => (fsUpdate fs p ⟨data, perm⟩, false)
  | .writeFail k =>
    match fsRead fs p with
    | some f => (fsUpdate fs p ⟨data.take k, f.perm⟩, true)
    | none => (fsUpdate fs p ⟨data.take k, perm⟩, true)

/-! Request/response structures and error messages of the exact-text edit tool
(`NewEditFileTool` in `foundation/tools/editfile.go`).  The `%v` payloads of
the OS and parser errors are abstracted to fixed placeholders. -/

/-- Request of the `edit_go_file` tool. -/
structure EditFileRequest where
  Path : String
  OldString : Content
  NewString : Content

/-- Response of the `edit_go_file` tool: on success `Message` is populated and
`Error` is empty, on failure `Error` is populated and `Message` is empty. -/
structure EditFileResponse where
  Message : String
  Error : String
deriving DecidableEq, Repr

/-- Error message for an empty `path` argument. -/
def pathEmptyMsg : String := "path cannot be empty"

/-- Error message for an empty `old_string` argument. -/
def oldEmptyMsg : String := "old_string cannot be empty"

/-- Error message for a nonexistent target file. -/
def fileNotFoundMsg (p : String) : String :=
  "file " ++ sq ++ p ++ sq ++
    " not found. If from a cloned repo, use the FULL path from search_files result (e.g. " ++
    sq ++ "repos/org/repo/file.go" ++ sq ++ ", not just " ++ sq ++ "file.go" ++ sq ++ ")."

/-- Error message when `old_string` does not occur in the file. -/
def oldNotFoundMsg (p : String) : String :=
  "old_string not found in file " ++ sq ++ p ++ sq ++
    ". The text must match EXACTLY including all whitespace, tabs, and indentation. First read the file with read_file to see the exact content, then copy the lines you want to change (with 3-5 lines of context) as old_string."

/-- Error message when `old_string` occurs `n > 1` times in the file. -/
def ambiguousMsg (n : Nat) (p : String) : String :=
  "old_string " ++ ("appears " ++ Nat.repr n ++ " times") ++ " in file " ++ sq ++ p ++ sq ++
    ". Add more surrounding lines (before/after) to make it unique. Include function signatures, struct definitions, or other unique context."

/-- Error message when the modified content fails to parse as Go. -/
def syntaxErrMsg (p : String) : String :=
  "syntax error after modification in " ++ sq ++ p ++ sq ++
    ": <parser error>. The new_string likely has incorrect syntax or indentation. Check brackets, semicolons, and ensure proper Go syntax. Read the file again to verify the context."

/-- Error message when the final `os.WriteFile` fails. -/
def writeFailMsg : String := "failed to write file: <io error>"

/-- Success-message fragment describing the size of the change. -/
def editAction (oldLen newLen : Nat) : String :=
  if newLen = 0 then "Deleted " ++ Nat.repr oldLen ++ " characters"
  else if newLen < oldLen then
    "Replaced " ++ Nat.repr oldLen ++ " characters with " ++ Nat.repr newLen ++
      " characters (-" ++ Nat.repr (oldLen - newLen) ++ ")"
  else if oldLen < newLen then
    "Replaced " ++ Nat.repr oldLen ++ " characters with " ++ Nat.repr newLen ++
      " characters (+" ++ Nat.repr (newLen - oldLen) ++ ")"
  else "Replaced " ++ Nat.repr oldLen ++ " characters"

/-- Success message of the edit tool. -/
def successMsg (oldLen newLen : Nat) (p : String) : String :=
  "✅ " ++ editAction oldLen newLen ++ " in " ++ p

/-- Translation of the handler of `NewEditFileTool` (editfile.go lines 31-105)
over the filesystem model.  `parseOk` is the uninterpreted verdict of
`parser.ParseFile`, `fmtSrc` the uninterpreted result of `format.Source`
(`none` models a formatting error, in which case the code falls back to the
unformatted content), and `w` the outcome of the final `os.WriteFile`.
Returns the filesystem after the call together with the structured response. -/
def editGoFile (fs : Fs) (req : EditFileRequest) (parseOk : Content → Bool)
    (fmtSrc : Content → Option Content) (w : WriteOutcome) :
    Fs × EditFileResponse :=
  if req.Path = "" then (fs, ⟨"", pathEmptyMsg⟩)
  else if req.OldString.isEmpty then (fs, ⟨"", oldEmptyMsg⟩)
  else
    match fsRead fs req.Path with
    | none => (fs, ⟨"", fileNotFoundMsg req.Path⟩)
    | some file =>
      let originalContent := file.content
      if ¬ containsSub originalContent req.OldString then
        (fs, ⟨"", oldNotFoundMsg req.Path⟩)
      else
        let occurrences := countOcc originalContent req.OldString
        if 1 < occurrences then
          (fs, ⟨"", ambiguousMsg occurrences req.Path⟩)
        else
          let modifiedContent := replaceFirst originalContent req.OldString req.NewString
          if ¬ parseOk modifiedContent then
            (fs, ⟨"", syntaxErrMsg req.Path⟩)
          else
            let formattedContent := (fmtSrc modifiedContent).getD modifiedContent
            match osWriteFile fs req.Path formattedContent 420 w with
            | (fs2, true) => (fs2, ⟨"", writeFailMsg⟩)
            | (fs2, false) =>
              (fs2, ⟨successMsg req.OldString.length req.NewString.length req.Path, ""⟩)

/-! The content-search half: `searchFileContent` and its helpers, translated
from `foundation/tools/searchfiles.go` (lines 162-213); the loop body is
shared verbatim with the parallel variant in the unnamed `tools` package.
The compiled `contains` regular expression is an uninterpreted line
predicate. -/

/-- Translation of Go `strings.Split content "\n"`: split at every newline;
`n` newlines yield `n + 1` pieces, so a trailing newline yields a final empty
line. -/
def splitNl : Content → List Content
  | [] => [[]]
  | c :: t =>
    if c = '\n' then [] :: splitNl t
    else
      match splitNl t with
      | [] => [[c]]
      | h :: r => (c :: h) :: r

/-- Translation of Go `strings.Join xs "\n"`. -/
def joinNl : List Content → Content
  | [] => []
  | [x] => x
  | x :: y :: rest => x ++ '\n' :: joinNl (y :: rest)

/-- Translation of the `%4d` format verb: decimal digits right-justified in a
field of width four. -/
def pad4 (n : Nat) : Content :=
  List.replicate (4 - (Nat.repr n).length) ' ' ++ (Nat.repr n).data

/-- One line of a context snippet, `fmt.Sprintf("%s%4d|%s", prefixStr, j+1,
lines[j])`, where the prefix marks the matched line `j = i` with an arrow. -/
def fmtSnippetLine (i j : Nat) (line : Content) : Content :=
  (if j = i then "→ ".data else "  ".data) ++ pad4 (j + 1) ++ '|' :: line

/-- Context snippet for a match on line index `i` (0-indexed): the formatted
lines from `start := max 0 (i-2)` up to (excluding) `min (i+3) len`, joined
with newlines.  Natural-number subtraction realises the clamp at zero. -/
def snippetAt (lines : List Content) (i : Nat) : Content :=
  joinNl ((List.range' (i - 2) (min (i + 3) lines.length - (i - 2))).map
    (fun j => fmtSnippetLine i j (lines.getD j [])))

/-- The scanning loop of `searchFileContent`: walk the lines with their index
`i` (the first argument is the full line list used for snippet context, the
`Nat` is the index of the head of the remaining list), collecting the
1-indexed numbers and the snippets of the lines matched by `p`. -/
def searchPass (allLines : List Content) (p : Content → Bool) :
    Nat → List Content → List Nat × List Content
  | _, [] => ([], [])
  | i, line :: rest =>
    let r := searchPass allLines p (i + 1) rest
    if p line then ((i + 1) :: r.1, snippetAt allLines i :: r.2) else r

/-- A search hit for one file, mirroring the Go `FileMatch` struct. -/
structure FileMatch where
  File : String
  Lines : List Nat
  Snippets : List Content
  TotalLines : Nat
deriving DecidableEq, Repr

/-- Translation of `searchFileContent`: split the content into lines, collect
the matching line numbers and snippets, and return `none` when no line
matches (so such a file contributes no `FileMatch` at all). -/
def searchFileContent (filePath : String) (content : Content)
    (p : Content → Bool) : Option FileMatch :=
  let lines := splitNl content
  let r := searchPass lines p 0 lines
  if r.1.isEmpty then none
  else some ⟨filePath, r.1, r.2, lines.length⟩

/-! Candidate collection: the recursive directory walks.  A directory tree is
modelled inductively; each node carries its base name, and files carry their
content (standing for what `os.ReadFile` would return at their path). -/

/-- A directory tree: files with content, directories with children. -/
inductive FsTree where
  | file (name : String) (content : Content)
  | dir (name : String) (children : List FsTree)

/-- Base name of a tree node. -/
def treeName : FsTree → String
  | .file n _ => n
  | .dir n _ => n

/-- The fixed skip-list shared by both search variants. -/
def skipNames : List String :=
  ["vendor", ".git", "node_modules", ".venv", ".idea", ".vscode"]

mutual
/-- Translation of the `filepath.WalkDir` fallback of `collectFiles` in the
parallel search variant (unnamed part_003, lines 129-147): a directory whose
base name is in the skip-list is pruned (`filepath.SkipDir`) with its whole
subtree; every file reached is collected with its path.  `p` is the path of
the node being visited; children are visited at `p ++ "/" ++ name`. -/
def collectFiles (p : String) : FsTree → List (String × Content)
  | .file _ c => [(p, c)]
  | .dir n cs => if n ∈ skipNames then [] else collectChildren p cs

/-- Walk of a list of sibling subtrees, in directory order. -/
def collectChildren (p : String) : List FsTree → List (String × Content)
  | [] => []
  | t :: ts => collectFiles (p ++ "/" ++ treeName t) t ++ collectChildren p ts
end

/-- Characterisation written from the claim: `KeptFile p t q` holds iff `q` is
the path of a file under the tree `t` rooted at path `p` such that no
directory on the way down (the root directory included) has a base name in
the skip-list. -/
inductive KeptFile : String → FsTree → String → Prop
  | file (p n : String) (c : Content) : KeptFile p (.file n c) p
  | dir (p n : String) (cs : List FsTree) (t : FsTree) (q : String) :
      n ∉ skipNames → t ∈ cs → KeptFile (p ++ "/" ++ treeName t) t q →
      KeptFile p (.dir n cs) q

/-- Skip test of the serial variant (`foundation/tools/searchfiles.go`, lines
108-115): Go runs `strings.Contains(path, skipDir)` against the WHOLE path for
each skip-list entry, a substring test rather than a base-name test. -/
def pathHitsSkip (p : String) : Bool :=
  skipNames.any (fun d => containsSub p.data d.data)

mutual
/-- Translation of the candidate-file collection of the `filepath.WalkDir`
fallback in `foundation/tools/searchfiles.go` (lines 99-148): an entry whose
path contains a skip-list entry as a substring is skipped (`SkipDir` for
directories, so their subtrees are never visited; plain skip for files);
every other file is a candidate. -/
def walkCollectSub (p : String) : FsTree → List String
  | .file _ _ => if pathHitsSkip p then [] else [p]
  | .dir _ cs => if pathHitsSkip p then [] else walkCollectSubChildren p cs

/-- Walk of a list of sibling subtrees for the serial variant. -/
def walkCollectSubChildren (p : String) : List FsTree → List String
  | [] => []
  | t :: ts => walkCollectSub (p ++ "/" ++ treeName t) t ++ walkCollectSubChildren p ts
end

/-! Top level of the parallel search tool (unnamed part_003, `NewSearchFilesTool`
lines 41-103), restricted to the glob-free path (`req.Pattern = ""`; the
doublestar glob expansion is an external library and is not modelled).  The
`filter` and `contains` regular expressions are uninterpreted: each argument
is either absent, present but failing to compile, or a compiled predicate.
The worker pool of `searchContentsConcurrently` is modelled by its fan-in
result after the blocking join, collected in input order (one deterministic
collection strategy). -/

/-- State of the optional `filter` regex argument. -/
inductive FilterArg where
  | absent
  | invalid
  | valid (p : String → Bool)

/-- State of the optional `contains` regex argument. -/
inductive ContainsArg where
  | absent
  | invalid
  | valid (p : Content → Bool)

/-- Response of the `search_files` tool. -/
structure SearchFilesResponse where
  Matches : List FileMatch
  Error : String

/-- Error message when `os.Stat` reports that the root path does not exist. -/
def notExistMsg (dir : String) : String :=
  "directory " ++ sq ++ dir ++ sq ++ " does not exist"

/-- Error message for an uncompilable `filter` regex. -/
def invalidFilterMsg : String :=
  "invalid regex for " ++ sq ++ "filter" ++ sq ++ ": <regex error>"

/-- Error message for an uncompilable `contains` regex. -/
def invalidContainsMsg : String :=
  "invalid regex for " ++ sq ++ "contains" ++ sq ++ ": <regex error>"

/-- Translation of the `search_files` handler (glob-free path).  `root` is
what `os.Stat` finds at the (defaulted) root path: `none` when nothing
exists there, otherwise the tree rooted there — which may be a single file,
since the Go code only checks existence, not directory-ness. -/
def searchFilesTool (root : Option FsTree) (pathArg : String)
    (filter : FilterArg) (contains : ContainsArg) : SearchFilesResponse :=
  let dir := if pathArg = "" then "." else pathArg
  match root with
  | none => ⟨[], notExistMsg dir⟩
  | some t =>
    match filter, contains with
    | .invalid, _ => ⟨[], invalidFilterMsg⟩
    | _, .invalid => ⟨[], invalidContainsMsg⟩
    | f, c =>
      let candidates : List (String × Content) := collectFiles dir t
      let filtered : List (String × Content) :=
        match f with
        | .valid pf => candidates.filter (fun cf => pf cf.1)
        | _ => candidates
      match c with
      | .valid pc =>
        ⟨filtered.filterMap (fun cf => searchFileContent cf.1 cf.2 pc), ""⟩
      | _ => ⟨filtered.map (fun cf => ⟨cf.1, [], [], 0⟩), ""⟩

/-! The AddImport operation of the structured AST editor.  The AST-surgery
edit tool described by the spec is not among the sources under src/ (only the
exact-text editor is), so it is modelled from the spec text. -/

/-- One import of a Go file: an optional alias and the import path. -/
structure ImportSpec where
  importAlias : Option String
  path : String
deriving DecidableEq, Repr

/-- Modelled from the spec: the view of a parsed Go file needed by AddImport —
its import block plus the remainder of the file, carried opaquely (AddImport
never touches anything but the import block). -/
structure GoSource where
  imports : List ImportSpec
  rest : Content
deriving DecidableEq, Repr

/-- EditResult of the spec data model: `{success, message, error}`. -/
structure EditResult where
  success : Bool
  message : String
  error : String
deriving DecidableEq, Repr

/-- Message reported when the import path is already present. -/
def importExistsMsg (p : String) : String :=
  "import " ++ sq ++ p ++ sq ++ " already exists"

/-- Message reported when the import was inserted. -/
def importAddedMsg (p : String) : String :=
  "added import " ++ sq ++ p ++ sq

/-- Modelled from the spec: insertion in the canonical position of the
sources import block, realised as the alphabetical position by path inside
the block. -/
def insertImport : List ImportSpec → ImportSpec → List ImportSpec
  | [], im => [im]
  | j :: rest, im =>
    if im.path ≤ j.path then im :: j :: rest else j :: insertImport rest im

/-- Modelled from the spec: the AddImport operation of the SourcePatcher,
which is absent from src/ — a no-op (reporting "already exists") when the
path is already imported with any alias; otherwise it inserts the path,
aliased or not, in the canonical position of the block. -/
def addImport (src : GoSource) (importPath : String)
    (importAlias : Option String) : GoSource × EditResult :=
  if src.imports.any (fun im => im.path = importPath) then
    (src, ⟨true, importExistsMsg importPath, ""⟩)
  else
    ({ src with imports := insertImport src.imports ⟨importAlias, importPath⟩ },
     ⟨true, importAddedMsg importPath, ""⟩)

/-! Lemmas about the string primitives and the filesystem model. -/

theorem countOccAux_skip (sub : Content) :
    ∀ (s : Content) (k : Nat), countOccAux s sub k = countOccAux (s.drop k) sub 0 := by
  intro s
  induction s with
  | nil => intro k; simp [countOccAux]
  | cons c t ih =>
    intro k
    cases k with
    | zero => rfl
    | succ k => simpa [countOccAux] using ih k

theorem countOcc_nil (sub : Content) :
    countOcc [] sub = if sub.isEmpty then 1 else 0 := by
  unfold countOcc countOccAux
  split <;> rfl

theorem countOccAux_cons_zero (c : Char) (t sub : Content) :
    countOccAux (c :: t) sub 0 =
      if sub.isPrefixOf (c :: t) then 1 + countOccAux t sub (sub.length - 1)
      else countOccAux t sub 0 := rfl

/-- The structural scan satisfies the advance-by-`len sub` recurrence of Go
`strings.Count` for a nonempty needle. -/
theorem countOcc_cons (c : Char) (t sub : Content) (h : sub ≠ []) :
    countOcc (c :: t) sub =
      if sub.isPrefixOf (c :: t) then 1 + countOcc ((c :: t).drop sub.length) sub
      else countOcc t sub := by
  have hie : sub.isEmpty = false := by cases sub <;> simp_all
  have hlen : sub.length - 1 + 1 = sub.length := by
    have : 0 < sub.length := List.length_pos.mpr h
    omega
  have hdrop : (c :: t).drop sub.length = t.drop (sub.length - 1) := by
    conv_lhs => rw [← hlen]
    exact List.drop_succ_cons
  unfold countOcc
  rw [hie]
  simp only [Bool.false_eq_true, if_false]
  rw [countOccAux_cons_zero, countOccAux_skip sub t (sub.length - 1), ← hdrop]

/-- A nonempty needle occurs zero times exactly when `strings.Contains` is
false. -/
theorem containsSub_eq_false_iff (s sub : Content) (h : sub ≠ []) :
    containsSub s sub = false ↔ countOcc s sub = 0 := by
  have hie : sub.isEmpty = false := by cases sub <;> simp_all
  induction s with
  | nil => simp [containsSub, countOcc_nil, hie]
  | cons c t ih =>
    rw [countOcc_cons c t sub h]
    by_cases hp : sub.isPrefixOf (c :: t)
    · simp [containsSub, hp]
    · simp only [containsSub, hp, Bool.false_eq_true, if_false]
      exact ih

theorem containsSub_append_self (sub v : Content) :
    containsSub (sub ++ v) sub = true := by
  cases hs : sub ++ v with
  | nil =>
    have hsub : sub = [] := by cases sub <;> simp_all
    simp [hsub, containsSub]
  | cons c t =>
    have hpre : sub.isPrefixOf (c :: t) = true := by
      rw [← hs]
      exact List.isPrefixOf_iff_prefix.mpr (List.prefix_append sub v)
    simp [containsSub, hpre]

theorem containsSub_of_infix (s sub : Content) (h : sub <:+: s) :
    containsSub s sub = true := by
  obtain ⟨u, v, rfl⟩ := h
  induction u with
  | nil => simpa using containsSub_append_self sub v
  | cons c u ih =>
    show containsSub (c :: (u ++ sub ++ v)) sub = true
    have he : containsSub (c :: (u ++ sub ++ v)) sub =
        if sub.isPrefixOf (c :: (u ++ sub ++ v)) then true
        else containsSub (u ++ sub ++ v) sub := rfl
    rw [he]
    by_cases hp : sub.isPrefixOf (c :: (u ++ sub ++ v))
    · rw [if_pos hp]
    · rw [if_neg hp]
      exact ih

/-- The ambiguity message literally contains "appears `n` times". -/
theorem strContains_ambiguousMsg (n : Nat) (p : String) :
    strContains (ambiguousMsg n p)
      ("appears " ++ Nat.repr n ++ " times") = true := by
  unfold strContains
  apply containsSub_of_infix
  refine ⟨"old_string ".data,
    (" in file " ++ sq ++ p ++ sq ++
      ". Add more surrounding lines (before/after) to make it unique. Include function signatures, struct definitions, or other unique context.").data,
    ?_⟩
  show "old_string ".data ++ _ ++ _ = (ambiguousMsg n p).data
  simp [ambiguousMsg, List.append_assoc]

theorem fsRead_fsUpdate_self (fs : Fs) (p : String) (f : GoFile) :
    fsRead (fsUpdate fs p f) p = some f := by
  induction fs with
  | nil => simp [fsUpdate, fsRead]
  | cons hd rest ih =>
    obtain ⟨q, g⟩ := hd
    by_cases hq : q = p
    · simp [fsUpdate, fsRead, hq]
    · simp [fsUpdate, fsRead, hq, ih]

/-! Claims about the exact-text edit tool. -/

/-- C10: an exact-text edit call whose `path` or `old_string` argument is the
empty string returns a structured error response (a populated `Error` field,
no raised fault), leaves the filesystem unchanged, and performs no filesystem
access at all — its response does not depend on the filesystem. -/
theorem editGoFile_empty_args (fs fs2 : Fs) (req : EditFileRequest)
    (parseOk : Content → Bool) (fmtSrc : Content → Option Content)
    (w : WriteOutcome) (h : req.Path = "" ∨ req.OldString = []) :
    (editGoFile fs req parseOk fmtSrc w).1 = fs ∧
    (editGoFile fs req parseOk fmtSrc w).2.Message = "" ∧
    (editGoFile fs req parseOk fmtSrc w).2.Error ≠ "" ∧
    ((editGoFile fs req parseOk fmtSrc w).2.Error = pathEmptyMsg ∨
      (editGoFile fs req parseOk fmtSrc w).2.Error = oldEmptyMsg) ∧
    (editGoFile fs req parseOk fmtSrc w).2 = (editGoFile fs2 req parseOk fmtSrc w).2 := by
  have hpe : pathEmptyMsg ≠ "" := by decide
  have hoe : oldEmptyMsg ≠ "" := by decide
  by_cases hP : req.Path = ""
  · simp [editGoFile, hP, hpe]
  · rcases h with h | h
    · exact absurd h hP
    · have hie : req.OldString.isEmpty = true := by simp [h]
      simp [editGoFile, hP, hie, hoe]

/-- Witness for C10 at a concrete empty-path request. -/
theorem editGoFile_empty_args_witness :
    (editGoFile [("f.go", ⟨"xy".data, 420⟩)] ⟨"", "a".data, "b".data⟩
        (fun _ => true) (fun _ => none) .success).1 = [("f.go", ⟨"xy".data, 420⟩)] ∧
    (editGoFile [("f.go", ⟨"xy".data, 420⟩)] ⟨"", "a".data, "b".data⟩
        (fun _ => true) (fun _ => none) .success).2.Message = "" ∧
    (editGoFile [("f.go", ⟨"xy".data, 420⟩)] ⟨"", "a".data, "b".data⟩
        (fun _ => true) (fun _ => none) .success).2.Error ≠ "" ∧
    ((editGoFile [("f.go", ⟨"xy".data, 420⟩)] ⟨"", "a".data, "b".data⟩
        (fun _ => true) (fun _ => none) .success).2.Error = pathEmptyMsg ∨
      (editGoFile [("f.go", ⟨"xy".data, 420⟩)] ⟨"", "a".data, "b".data⟩
        (fun _ => true) (fun _ => none) .success).2.Error = oldEmptyMsg) ∧
    (editGoFile [("f.go", ⟨"xy".data, 420⟩)] ⟨"", "a".data, "b".data⟩
        (fun _ => true) (fun _ => none) .success).2 =
      (editGoFile [] ⟨"", "a".data, "b".data⟩
        (fun _ => true) (fun _ => none) .success).2 :=
  editGoFile_empty_args [("f.go", ⟨"xy".data, 420⟩)] [] ⟨"", "a".data, "b".data⟩
    (fun _ => true) (fun _ => none) .success (Or.inl rfl)

theorem append_ne_empty_left (s t : String) (h : s ≠ "") : s ++ t ≠ "" := by
  intro hc
  apply h
  apply String.ext
  have hd : s.data ++ t.data = [] := by
    have h2 : (s ++ t).data = [] := by rw [hc]
    simpa [String.data_append] using h2
  simpa using (List.append_eq_nil.mp hd).1

theorem pathEmptyMsg_ne : pathEmptyMsg ≠ "" := by decide

theorem oldEmptyMsg_ne : oldEmptyMsg ≠ "" := by decide

theorem writeFailMsg_ne : writeFailMsg ≠ "" := by decide

theorem fileNotFoundMsg_ne (p : String) : fileNotFoundMsg p ≠ "" := by
  unfold fileNotFoundMsg
  repeat apply append_ne_empty_left
  decide

theorem oldNotFoundMsg_ne (p : String) : oldNotFoundMsg p ≠ "" := by
  unfold oldNotFoundMsg
  repeat apply append_ne_empty_left
  decide

theorem ambiguousMsg_ne (n : Nat) (p : String) : ambiguousMsg n p ≠ "" := by
  unfold ambiguousMsg
  repeat apply append_ne_empty_left
  decide

theorem syntaxErrMsg_ne (p : String) : syntaxErrMsg p ≠ "" := by
  unfold syntaxErrMsg
  repeat apply append_ne_empty_left
  decide

/-- Exhaustive branch analysis of the edit handler: every completion either
leaves the filesystem untouched, or succeeded, or failed in the write step. -/
theorem editGoFile_cases (fs : Fs) (req : EditFileRequest)
    (parseOk : Content → Bool) (fmtSrc : Content → Option Content)
    (w : WriteOutcome) :
    (editGoFile fs req parseOk fmtSrc w).1 = fs ∨
    (editGoFile fs req parseOk fmtSrc w).2.Error = "" ∨
    (editGoFile fs req parseOk fmtSrc w).2.Error = writeFailMsg := by
  unfold editGoFile
  split
  · exact Or.inl rfl
  split
  · exact Or.inl rfl
  split
  · exact Or.inl rfl
  dsimp only
  split
  · exact Or.inl rfl
  split
  · exact Or.inl rfl
  split
  · exact Or.inl rfl
  split
  · exact Or.inr (Or.inr rfl)
  · exact Or.inr (Or.inl rfl)

/-- C2: an exact-text edit mutates the file only when `old_string` occurs in
it exactly once.  Zero occurrences yield the not-found error and an unchanged
filesystem; more than one occurrence yields the ambiguous-match error, whose
message literally states "appears `n` times", with an unchanged filesystem;
and any call that does change the filesystem had exactly one occurrence. -/
theorem editGoFile_requires_unique_occurrence
    (fs : Fs) (req : EditFileRequest) (parseOk : Content → Bool)
    (fmtSrc : Content → Option Content) (w : WriteOutcome) (f : GoFile)
    (hp : req.Path ≠ "") (ho : req.OldString ≠ [])
    (hf : fsRead fs req.Path = some f) :
    (countOcc f.content req.OldString = 0 →
      (editGoFile fs req parseOk fmtSrc w).1 = fs ∧
      (editGoFile fs req parseOk fmtSrc w).2.Error = oldNotFoundMsg req.Path) ∧
    (1 < countOcc f.content req.OldString →
      (editGoFile fs req parseOk fmtSrc w).1 = fs ∧
      (editGoFile fs req parseOk fmtSrc w).2.Error =
        ambiguousMsg (countOcc f.content req.OldString) req.Path ∧
      strContains ((editGoFile fs req parseOk fmtSrc w).2.Error)
        ("appears " ++ Nat.repr (countOcc f.content req.OldString) ++ " times") = true) ∧
    ((editGoFile fs req parseOk fmtSrc w).1 ≠ fs →
      countOcc f.content req.OldString = 1) := by
  have hie : req.OldString.isEmpty = false := by
    cases hc : req.OldString
    · exact absurd hc ho
    · rfl
  refine ⟨?_, ?_, ?_⟩
  · intro h0
    have hcf : containsSub f.content req.OldString = false :=
      (containsSub_eq_false_iff _ _ ho).mpr h0
    simp [editGoFile, hp, hie, hf, hcf]
  · intro h1
    have hct : containsSub f.content req.OldString = true := by
      cases hcs : containsSub f.content req.OldString with
      | false =>
        have h0 := (containsSub_eq_false_iff _ _ ho).mp hcs
        omega
      | true => rfl
    have hres : editGoFile fs req parseOk fmtSrc w =
        (fs, ⟨"", ambiguousMsg (countOcc f.content req.OldString) req.Path⟩) := by
      simp [editGoFile, hp, hie, hf, hct, h1]
    rw [hres]
    exact ⟨rfl, rfl, strContains_ambiguousMsg _ _⟩
  · intro hne
    cases hcs : containsSub f.content req.OldString with
    | false =>
      exfalso
      apply hne
      simp [editGoFile, hp, hie, hf, hcs]
    | true =>
      by_cases h1 : 1 < countOcc f.content req.OldString
      · exfalso
        apply hne
        simp [editGoFile, hp, hie, hf, hcs, h1]
      · have h0 : countOcc f.content req.OldString ≠ 0 := by
          intro hz
          have hcf := (containsSub_eq_false_iff _ _ ho).mpr hz
          rw [hcs] at hcf
          simp at hcf
        omega

/-- Filesystem of the C2 witness: `old_string` occurs twice in `f.go`. -/
def exC2Fs : Fs := [("f.go", ⟨"abab".data, 420⟩)]

/-- Request of the C2 witness. -/
def exC2Req : EditFileRequest := ⟨"f.go", "ab".data, "cd".data⟩

/-- Witness for C2: at a file containing `old_string` twice, the theorem
applies and its ambiguous-match branch is the live one. -/
theorem editGoFile_requires_unique_occurrence_witness :
    (countOcc (GoFile.mk "abab".data 420).content exC2Req.OldString = 0 →
      (editGoFile exC2Fs exC2Req (fun _ => true) (fun _ => none) .success).1 = exC2Fs ∧
      (editGoFile exC2Fs exC2Req (fun _ => true) (fun _ => none) .success).2.Error =
        oldNotFoundMsg exC2Req.Path) ∧
    (1 < countOcc (GoFile.mk "abab".data 420).content exC2Req.OldString →
      (editGoFile exC2Fs exC2Req (fun _ => true) (fun _ => none) .success).1 = exC2Fs ∧
      (editGoFile exC2Fs exC2Req (fun _ => true) (fun _ => none) .success).2.Error =
        ambiguousMsg (countOcc (GoFile.mk "abab".data 420).content exC2Req.OldString)
          exC2Req.Path ∧
      strContains ((editGoFile exC2Fs exC2Req (fun _ => true) (fun _ => none) .success).2.Error)
        ("appears " ++
          Nat.repr (countOcc (GoFile.mk "abab".data 420).content exC2Req.OldString) ++
          " times") = true) ∧
    ((editGoFile exC2Fs exC2Req (fun _ => true) (fun _ => none) .success).1 ≠ exC2Fs →
      countOcc (GoFile.mk "abab".data 420).content exC2Req.OldString = 1) :=
  editGoFile_requires_unique_occurrence exC2Fs exC2Req (fun _ => true) (fun _ => none)
    .success (GoFile.mk "abab".data 420) (by decide) (by decide) (by decide)

/-- Filesystem of the C1 write-failure counterexample. -/
def exC1Fs : Fs := [("f.go", ⟨"xaby".data, 420⟩)]

/-- Request of the C1 write-failure counterexample. -/
def exC1Req : EditFileRequest := ⟨"f.go", "ab".data, "cd".data⟩

/-- C1 counterexample: an exact-text edit whose final `os.WriteFile` fails
partway through (here after writing 0 bytes) completes with an error, yet the
target file is NOT byte-for-byte identical to its pre-call content —
`os.WriteFile` truncates the target in place before writing, so a failed
write leaves a partially-applied mutation on disk.  This refutes the claim
that EVERY error completion, including a failed write, leaves the file
unchanged, and that the write step is all-or-nothing. -/
theorem editGoFile_write_failure_mutates :
    (editGoFile exC1Fs exC1Req (fun _ => true) (fun _ => none) (.writeFail 0)).2.Error ≠ "" ∧
    (editGoFile exC1Fs exC1Req (fun _ => true) (fun _ => none) (.writeFail 0)).1 ≠ exC1Fs := by
  decide

/-- C1 amended: every exact-text edit call that completes with an error and
whose error is not the write failure itself (file not read, `old_string`
absent or ambiguous, post-edit parse failure, empty arguments) leaves the
filesystem byte-for-byte unchanged; only the final write step, a plain
truncate-and-write rather than an atomic replace, can leave a mutated file
behind an error. -/
theorem editGoFile_error_unchanged_unless_write_fails
    (fs : Fs) (req : EditFileRequest) (parseOk : Content → Bool)
    (fmtSrc : Content → Option Content) (w : WriteOutcome)
    (herr : (editGoFile fs req parseOk fmtSrc w).2.Error ≠ "") :
    (editGoFile fs req parseOk fmtSrc w).2.Error = writeFailMsg ∨
    (editGoFile fs req parseOk fmtSrc w).1 = fs := by
  rcases editGoFile_cases fs req parseOk fmtSrc w with h | h | h
  · exact Or.inr h
  · exact absurd h herr
  · exact Or.inl h

/-- Witness for the amended C1 at a concrete failing edit (missing
`old_string`), which indeed leaves the filesystem unchanged. -/
theorem editGoFile_error_unchanged_unless_write_fails_witness :
    (editGoFile [("f.go", ⟨"xy".data, 420⟩)] ⟨"f.go", "zz".data, []⟩
        (fun _ => true) (fun _ => none) .success).2.Error = writeFailMsg ∨
    (editGoFile [("f.go", ⟨"xy".data, 420⟩)] ⟨"f.go", "zz".data, []⟩
        (fun _ => true) (fun _ => none) .success).1 = [("f.go", ⟨"xy".data, 420⟩)] :=
  editGoFile_error_unchanged_unless_write_fails [("f.go", ⟨"xy".data, 420⟩)]
    ⟨"f.go", "zz".data, []⟩ (fun _ => true) (fun _ => none) .success (by decide)

/-- C4: after every successful exact-text edit, the target file still exists
and its permission bits equal the pre-edit permission bits (`os.WriteFile`
passes 0644, but that mode is only applied when a file is created; the
existing target keeps its permissions). -/
theorem editGoFile_success_preserves_perm
    (fs : Fs) (req : EditFileRequest) (parseOk : Content → Bool)
    (fmtSrc : Content → Option Content) (w : WriteOutcome) (f : GoFile)
    (hf : fsRead fs req.Path = some f)
    (hok : (editGoFile fs req parseOk fmtSrc w).2.Error = "") :
    ∃ g : GoFile,
      fsRead (editGoFile fs req parseOk fmtSrc w).1 req.Path = some g ∧
      g.perm = f.perm := by
  by_cases hP : req.Path = ""
  · have hres : editGoFile fs req parseOk fmtSrc w = (fs, ⟨"", pathEmptyMsg⟩) := by
      simp [editGoFile, hP]
    rw [hres] at hok
    exact absurd hok pathEmptyMsg_ne
  by_cases hO : req.OldString.isEmpty
  · have hres : editGoFile fs req parseOk fmtSrc w = (fs, ⟨"", oldEmptyMsg⟩) := by
      simp [editGoFile, hP, hO]
    rw [hres] at hok
    exact absurd hok oldEmptyMsg_ne
  by_cases hC : containsSub f.content req.OldString
  case neg =>
    have hres : editGoFile fs req parseOk fmtSrc w =
        (fs, ⟨"", oldNotFoundMsg req.Path⟩) := by
      simp [editGoFile, hP, hO, hf, hC]
    rw [hres] at hok
    exact absurd hok (oldNotFoundMsg_ne req.Path)
  case pos =>
  by_cases h1 : 1 < countOcc f.content req.OldString
  · have hres : editGoFile fs req parseOk fmtSrc w =
        (fs, ⟨"", ambiguousMsg (countOcc f.content req.OldString) req.Path⟩) := by
      simp [editGoFile, hP, hO, hf, hC, h1]
    rw [hres] at hok
    exact absurd hok (ambiguousMsg_ne _ req.Path)
  by_cases hPk : parseOk (replaceFirst f.content req.OldString req.NewString)
  case neg =>
    have hres : editGoFile fs req parseOk fmtSrc w =
        (fs, ⟨"", syntaxErrMsg req.Path⟩) := by
      simp [editGoFile, hP, hO, hf, hC, h1, hPk]
    rw [hres] at hok
    exact absurd hok (syntaxErrMsg_ne req.Path)
  case pos =>
  cases w with
  | openFail =>
    have hres : editGoFile fs req parseOk fmtSrc .openFail =
        (fs, ⟨"", writeFailMsg⟩) := by
      simp [editGoFile, osWriteFile, hP, hO, hf, hC, h1, hPk]
    rw [hres] at hok
    exact absurd hok writeFailMsg_ne
  | writeFail k =>
    have hres : editGoFile fs req parseOk fmtSrc (.writeFail k) =
        (fsUpdate fs req.Path
          ⟨(((fmtSrc (replaceFirst f.content req.OldString req.NewString)).getD
              (replaceFirst f.content req.OldString req.NewString)).take k), f.perm⟩,
         ⟨"", writeFailMsg⟩) := by
      simp [editGoFile, osWriteFile, hP, hO, hf, hC, h1, hPk]
    rw [hres] at hok
    exact absurd hok writeFailMsg_ne
  | success =>
    have hres : editGoFile fs req parseOk fmtSrc .success =
        (fsUpdate fs req.Path
          ⟨((fmtSrc (replaceFirst f.content req.OldString req.NewString)).getD
              (replaceFirst f.content req.OldString req.NewString)), f.perm⟩,
         ⟨successMsg req.OldString.length req.NewString.length req.Path, ""⟩) := by
      simp [editGoFile, osWriteFile, hP, hO, hf, hC, h1, hPk]
    rw [hres]
    exact ⟨_, fsRead_fsUpdate_self fs req.Path _, rfl⟩

/-- Witness for C4 at a concrete successful edit on a file with permission
bits 0600. -/
theorem editGoFile_success_preserves_perm_witness :
    ∃ g : GoFile,
      fsRead (editGoFile [("f.go", ⟨"xaby".data, 384⟩)] ⟨"f.go", "ab".data, "cd".data⟩
          (fun _ => true) (fun _ => none) .success).1 "f.go" = some g ∧
      g.perm = (GoFile.mk "xaby".data 384).perm :=
  editGoFile_success_preserves_perm [("f.go", ⟨"xaby".data, 384⟩)]
    ⟨"f.go", "ab".data, "cd".data⟩ (fun _ => true) (fun _ => none) .success
    (GoFile.mk "xaby".data 384) (by decide) (by decide)

/-! Lemmas about the content-search scan. -/

theorem searchPass_length (allLines : List Content) (p : Content → Bool) :
    ∀ (i : Nat) (l : List Content),
      (searchPass allLines p i l).1.length = (searchPass allLines p i l).2.length := by
  intro i l
  induction l generalizing i with
  | nil => rfl
  | cons line rest ih =>
    by_cases hp : p line
    · simp [searchPass, hp, ih]
    · simp [searchPass, hp, ih]

theorem searchPass_mem (allLines : List Content) (p : Content → Bool) :
    ∀ (i : Nat) (l : List Content) (n : Nat),
      n ∈ (searchPass allLines p i l).1 ↔
        ∃ k, k < l.length ∧ n = i + k + 1 ∧ p (l.getD k []) = true := by
  intro i l
  induction l generalizing i with
  | nil => intro n; simp [searchPass]
  | cons line rest ih =>
    intro n
    by_cases hp : p line
    · simp only [searchPass, hp, if_true, List.mem_cons]
      constructor
      · rintro (rfl | hmem)
        · exact ⟨0, by simp, by omega, by simpa using hp⟩
        · obtain ⟨k, hk, hn, hpk⟩ := (ih (i + 1) n).mp hmem
          refine ⟨k + 1, by simpa using hk, by omega, by simpa using hpk⟩
      · rintro ⟨k, hk, rfl, hpk⟩
        cases k with
        | zero => left; omega
        | succ k =>
          right
          have hn : i + (k + 1) + 1 = (i + 1) + k + 1 := by omega
          rw [hn]
          refine (ih (i + 1) _).mpr ⟨k, by simpa using hk, rfl, by simpa using hpk⟩
    · simp only [searchPass, hp, if_false, Bool.false_eq_true]
      rw [ih (i + 1) n]
      constructor
      · rintro ⟨k, hk, rfl, hpk⟩
        exact ⟨k + 1, by simpa using hk, by omega, by simpa using hpk⟩
      · rintro ⟨k, hk, rfl, hpk⟩
        cases k with
        | zero =>
          exfalso
          simp only [List.getD_cons_zero] at hpk
          rw [hpk] at hp
          exact hp rfl
        | succ k =>
          have hn : i + (k + 1) + 1 = (i + 1) + k + 1 := by omega
          rw [hn]
          exact ⟨k, by simpa using hk, rfl, by simpa using hpk⟩

theorem searchPass_gt (allLines : List Content) (p : Content → Bool) :
    ∀ (i : Nat) (l : List Content) (n : Nat),
      n ∈ (searchPass allLines p i l).1 → i < n := by
  intro i l n hmem
  obtain ⟨k, _, rfl, _⟩ := (searchPass_mem allLines p i l n).mp hmem
  omega

theorem searchPass_pairwise (allLines : List Content) (p : Content → Bool) :
    ∀ (i : Nat) (l : List Content),
      List.Pairwise (· < ·) (searchPass allLines p i l).1 := by
  intro i l
  induction l generalizing i with
  | nil => simp [searchPass]
  | cons line rest ih =>
    by_cases hp : p line
    · simp only [searchPass, hp, if_true]
      refine List.pairwise_cons.mpr ⟨?_, ih (i + 1)⟩
      intro n hn
      have := searchPass_gt allLines p (i + 1) rest n hn
      omega
    · simpa [searchPass, hp] using ih (i + 1)

theorem searchPass_get (allLines : List Content) (p : Content → Bool) :
    ∀ (i : Nat) (l : List Content) (k : Nat),
      k < (searchPass allLines p i l).1.length →
      ∃ j, j < l.length ∧
        (searchPass allLines p i l).1.getD k 0 = i + j + 1 ∧
        (searchPass allLines p i l).2.getD k [] = snippetAt allLines (i + j) ∧
        p (l.getD j []) = true := by
  intro i l
  induction l generalizing i with
  | nil => intro k hk; simp [searchPass] at hk
  | cons line rest ih =>
    intro k hk
    by_cases hp : p line
    · simp only [searchPass, hp, if_true] at hk ⊢
      cases k with
      | zero =>
        exact ⟨0, by simp, by simp, by simp, by simpa using hp⟩
      | succ k =>
        simp only [List.length_cons, Nat.succ_lt_succ_iff] at hk
        obtain ⟨j, hj, hg1, hg2, hpj⟩ := ih (i + 1) k hk
        refine ⟨j + 1, by simpa using hj, ?_, ?_, by simpa using hpj⟩
        · have hn : (i + 1) + j + 1 = i + (j + 1) + 1 := by omega
          rw [← hn]
          simpa using hg1
        · have harg : i + (j + 1) = (i + 1) + j := by omega
          rw [List.getD_cons_succ, harg]
          exact hg2
    · simp only [searchPass, hp, if_false, Bool.false_eq_true] at hk ⊢
      obtain ⟨j, hj, hg1, hg2, hpj⟩ := ih (i + 1) k hk
      refine ⟨j + 1, by simpa using hj, ?_, ?_, by simpa using hpj⟩
      · have hn : (i + 1) + j + 1 = i + (j + 1) + 1 := by omega
        rw [← hn]
        exact hg1
      · have harg : i + (j + 1) = (i + 1) + j := by omega
        rw [harg]
        exact hg2

/-- Destructuring a successful content search: the returned match is built
from the scan of the split lines, whose hit list is nonempty. -/
theorem searchFileContent_eq_some (filePath : String) (content : Content)
    (p : Content → Bool) (m : FileMatch)
    (h : searchFileContent filePath content p = some m) :
    m = ⟨filePath, (searchPass (splitNl content) p 0 (splitNl content)).1,
         (searchPass (splitNl content) p 0 (splitNl content)).2,
         (splitNl content).length⟩ ∧
    (searchPass (splitNl content) p 0 (splitNl content)).1 ≠ [] := by
  simp only [searchFileContent] at h
  by_cases hmt : (searchPass (splitNl content) p 0 (splitNl content)).1.isEmpty
  · rw [if_pos hmt] at h
    exact absurd h (by simp)
  · rw [if_neg hmt] at h
    injection h with h2
    exact ⟨h2.symm, by simpa [List.isEmpty_iff] using hmt⟩

/-- C3: for every FileMatch returned by a content search, `Lines` is exactly
the strictly ascending (hence duplicate-free) list of 1-indexed numbers of
the file lines matching the content predicate: every member `n` satisfies
`1 ≤ n ≤` number of lines and line `n` matches, and conversely every matching
line of the file is listed. -/
theorem searchFileContent_lines_exact (filePath : String) (content : Content)
    (p : Content → Bool) (m : FileMatch)
    (h : searchFileContent filePath content p = some m) :
    List.Pairwise (· < ·) m.Lines ∧
    (∀ n : Nat, n ∈ m.Lines ↔
      1 ≤ n ∧ n ≤ (splitNl content).length ∧
        p ((splitNl content).getD (n - 1) []) = true) := by
  obtain ⟨hm, -⟩ := searchFileContent_eq_some filePath content p m h
  subst hm
  dsimp only
  refine ⟨searchPass_pairwise _ p 0 _, ?_⟩
  intro n
  rw [searchPass_mem]
  constructor
  · rintro ⟨k, hk, rfl, hpk⟩
    refine ⟨by omega, by omega, ?_⟩
    have hk2 : 0 + k + 1 - 1 = k := by omega
    rw [hk2]
    exact hpk
  · rintro ⟨h1, h2, hpn⟩
    refine ⟨n - 1, by omega, by omega, hpn⟩

/-- C9: in every FileMatch produced by a content search, Lines and Snippets
have equal length, both are non-empty (a file with no matching line yields no
FileMatch at all), and TotalLines bounds every entry of Lines from above. -/
theorem searchFileContent_invariants (filePath : String) (content : Content)
    (p : Content → Bool) (m : FileMatch)
    (h : searchFileContent filePath content p = some m) :
    m.Lines.length = m.Snippets.length ∧ m.Lines ≠ [] ∧ m.Snippets ≠ [] ∧
    ∀ n ∈ m.Lines, n ≤ m.TotalLines := by
  obtain ⟨hm, hne⟩ := searchFileContent_eq_some filePath content p m h
  subst hm
  dsimp only
  refine ⟨searchPass_length _ p 0 _, hne, ?_, ?_⟩
  · intro hsnil
    have hlen := searchPass_length (splitNl content) p 0 (splitNl content)
    rw [hsnil] at hlen
    simp only [List.length_nil] at hlen
    exact hne (List.length_eq_zero.mp hlen)
  · intro n hn
    obtain ⟨k, hk, rfl, -⟩ := (searchPass_mem _ p 0 _ n).mp hn
    omega

/-- C5: the `k`-th snippet of a FileMatch belongs to the `k`-th matched line
`j + 1` and is the newline-join of the formatted window running from two
lines before the match through two lines after it, clamped to the file
bounds; the window holds at most 5 lines and contains the matched line, whose
formatted form carries the arrow mark while every other window line carries
the plain two-space prefix. -/
theorem searchFileContent_snippets_window (filePath : String) (content : Content)
    (p : Content → Bool) (m : FileMatch)
    (h : searchFileContent filePath content p = some m) :
    ∀ k, k < m.Lines.length →
      ∃ j, j < (splitNl content).length ∧
        m.Lines.getD k 0 = j + 1 ∧
        m.Snippets.getD k [] =
          joinNl ((List.range' (j - 2) (min (j + 3) (splitNl content).length - (j - 2))).map
            (fun t => fmtSnippetLine j t ((splitNl content).getD t []))) ∧
        min (j + 3) (splitNl content).length - (j - 2) ≤ 5 ∧
        j ∈ List.range' (j - 2) (min (j + 3) (splitNl content).length - (j - 2)) ∧
        ("→ ".data).isPrefixOf (fmtSnippetLine j j ((splitNl content).getD j [])) = true ∧
        (∀ t, t ≠ j →
          ("  ".data).isPrefixOf (fmtSnippetLine j t ((splitNl content).getD t [])) = true) := by
  obtain ⟨hm, -⟩ := searchFileContent_eq_some filePath content p m h
  subst hm
  dsimp only
  intro k hk
  obtain ⟨j, hj, hg1, hg2, -⟩ := searchPass_get (splitNl content) p 0 (splitNl content) k hk
  refine ⟨j, hj, by simpa using hg1, ?_, by omega, ?_, ?_, ?_⟩
  · rw [hg2]
    simp [snippetAt]
  · rw [List.mem_range'_1]
    omega
  · have harrow : fmtSnippetLine j j ((splitNl content).getD j []) =
        "→ ".data ++ (pad4 (j + 1) ++ '|' :: (splitNl content).getD j []) := by
      simp [fmtSnippetLine, List.append_assoc]
    rw [harrow]
    exact List.isPrefixOf_iff_prefix.mpr (List.prefix_append _ _)
  · intro t ht
    have hplain : fmtSnippetLine j t ((splitNl content).getD t []) =
        "  ".data ++ (pad4 (t + 1) ++ '|' :: (splitNl content).getD t []) := by
      simp [fmtSnippetLine, ht, List.append_assoc]
    rw [hplain]
    exact List.isPrefixOf_iff_prefix.mpr (List.prefix_append _ _)

/-- Content of the search witnesses: three lines, of which the first and the
third match the predicate. -/
def exSearchContent : Content := "fx\ny\nfz".data

/-- Predicate of the search witnesses: the line contains the letter f. -/
def exSearchPred : Content → Bool := fun l => containsSub l "f".data

/-- The FileMatch produced on the witness content. -/
def exSearchMatch : FileMatch :=
  (searchFileContent "a.go" exSearchContent exSearchPred).getD ⟨"", [], [], 0⟩

/-- Witness for C3 at the concrete three-line file. -/
theorem searchFileContent_lines_exact_witness :
    List.Pairwise (· < ·) exSearchMatch.Lines ∧
    (∀ n : Nat, n ∈ exSearchMatch.Lines ↔
      1 ≤ n ∧ n ≤ (splitNl exSearchContent).length ∧
        exSearchPred ((splitNl exSearchContent).getD (n - 1) []) = true) :=
  searchFileContent_lines_exact "a.go" exSearchContent exSearchPred exSearchMatch rfl

/-- Witness for C9 at the concrete three-line file. -/
theorem searchFileContent_invariants_witness :
    exSearchMatch.Lines.length = exSearchMatch.Snippets.length ∧
    exSearchMatch.Lines ≠ [] ∧ exSearchMatch.Snippets ≠ [] ∧
    ∀ n ∈ exSearchMatch.Lines, n ≤ exSearchMatch.TotalLines :=
  searchFileContent_invariants "a.go" exSearchContent exSearchPred exSearchMatch rfl

/-- Witness for C5 at the concrete three-line file, for its first matched
line. -/
theorem searchFileContent_snippets_window_witness :
    ∃ j, j < (splitNl exSearchContent).length ∧
      exSearchMatch.Lines.getD 0 0 = j + 1 ∧
      exSearchMatch.Snippets.getD 0 [] =
        joinNl ((List.range' (j - 2)
            (min (j + 3) (splitNl exSearchContent).length - (j - 2))).map
          (fun t => fmtSnippetLine j t ((splitNl exSearchContent).getD t []))) ∧
      min (j + 3) (splitNl exSearchContent).length - (j - 2) ≤ 5 ∧
      j ∈ List.range' (j - 2) (min (j + 3) (splitNl exSearchContent).length - (j - 2)) ∧
      ("→ ".data).isPrefixOf
        (fmtSnippetLine j j ((splitNl exSearchContent).getD j [])) = true ∧
      (∀ t, t ≠ j →
        ("  ".data).isPrefixOf
          (fmtSnippetLine j t ((splitNl exSearchContent).getD t [])) = true) :=
  searchFileContent_snippets_window "a.go" exSearchContent exSearchPred exSearchMatch rfl
    0 (by decide)

/-! Claims about the search tool's root check and the AddImport operation. -/

/-- Whether the stat result names a directory. -/
def isDirRoot : Option FsTree → Bool
  | some (.dir _ _) => true
  | _ => false

/-- C8 counterexample: on a root path naming an existing regular FILE the
search does not fail — the code only checks existence (`os.Stat` +
`os.IsNotExist`), never directory-ness, so the claimed or-is-not-a-directory
half of the iff is false: here the root is not a directory yet
the error field stays empty. -/
theorem searchFilesTool_file_root_counterexample :
    ¬ (((searchFilesTool (some (FsTree.file "a" "x".data)) "a"
          .absent .absent).Error ≠ "") ↔
        ((some (FsTree.file "a" "x".data) : Option FsTree) = none ∨
          isDirRoot (some (FsTree.file "a" "x".data)) = false)) := by
  intro hiff
  exact hiff.mpr (Or.inr rfl) rfl

/-- C8 amended: with regex arguments that are absent or compile, the search
fails precisely when the root path does not exist (and then with the
not-found message); an existing root — directory or regular file alike —
proceeds to candidate collection and completes with an empty error. -/
theorem searchFilesTool_error_iff_missing (root : Option FsTree) (pathArg : String)
    (filter : FilterArg) (contains : ContainsArg)
    (hf : filter ≠ .invalid) (hc : contains ≠ .invalid) :
    ((searchFilesTool root pathArg filter contains).Error ≠ "" ↔ root = none) ∧
    (root = none →
      (searchFilesTool root pathArg filter contains).Error =
        notExistMsg (if pathArg = "" then "." else pathArg)) ∧
    (∀ t : FsTree, root = some t → filter = .absent → contains = .absent →
      (searchFilesTool root pathArg filter contains).Matches =
        (collectFiles (if pathArg = "" then "." else pathArg) t).map
          (fun cf => ⟨cf.1, [], [], 0⟩)) := by
  cases root with
  | none =>
    refine ⟨⟨fun _ => rfl, fun _ => ?_⟩, fun _ => rfl, fun t ht => by simp at ht⟩
    show notExistMsg (if pathArg = "" then "." else pathArg) ≠ ""
    unfold notExistMsg
    repeat apply append_ne_empty_left
    decide
  | some t =>
    have hok : (searchFilesTool (some t) pathArg filter contains).Error = "" := by
      cases filter with
      | invalid => exact absurd rfl hf
      | absent =>
        cases contains with
        | invalid => exact absurd rfl hc
        | absent => rfl
        | valid pc => rfl
      | valid pf =>
        cases contains with
        | invalid => exact absurd rfl hc
        | absent => rfl
        | valid pc => rfl
    refine ⟨⟨fun herr => absurd hok herr, fun hcon => ?_⟩, fun hcon => ?_, ?_⟩
    · simp at hcon
    · simp at hcon
    · intro t2 ht2 hfa hca
      injection ht2 with ht2
      subst ht2
      subst hfa
      subst hca
      rfl

/-- Witness for the amended C8 at a missing root path. -/
theorem searchFilesTool_error_iff_missing_witness :
    (((searchFilesTool none "repo" .absent .absent).Error ≠ "") ↔
      (none : Option FsTree) = none) ∧
    ((none : Option FsTree) = none →
      (searchFilesTool none "repo" .absent .absent).Error =
        notExistMsg (if ("repo" : String) = "" then "." else "repo")) ∧
    (∀ t : FsTree, (none : Option FsTree) = some t →
      FilterArg.absent = .absent → ContainsArg.absent = .absent →
      (searchFilesTool none "repo" .absent .absent).Matches =
        (collectFiles (if ("repo" : String) = "" then "." else "repo") t).map
          (fun cf => ⟨cf.1, [], [], 0⟩)) :=
  searchFilesTool_error_iff_missing none "repo" .absent .absent
    (fun h => FilterArg.noConfusion h) (fun h => ContainsArg.noConfusion h)

theorem insertImport_mem_path (l : List ImportSpec) (im : ImportSpec) :
    (insertImport l im).any (fun j => j.path = im.path) = true := by
  induction l with
  | nil => simp [insertImport]
  | cons j rest ih =>
    by_cases hle : im.path ≤ j.path
    · simp [insertImport, hle]
    · simp [insertImport, hle, ih]

/-- C6: AddImport is idempotent — if the import path is already present (with
any alias) the operation reports "already exists" and returns the file
unchanged; after a first AddImport (present or not), a second identical
AddImport reports "already exists" and leaves the file byte-identical to its
state after the first call; and on a file where the path was absent, the
first call succeeds with the added message and an empty error. -/
theorem addImport_idempotent (src : GoSource) (importPath : String)
    (importAlias : Option String) :
    (src.imports.any (fun im => im.path = importPath) = true →
      addImport src importPath importAlias =
        (src, ⟨true, importExistsMsg importPath, ""⟩)) ∧
    addImport (addImport src importPath importAlias).1 importPath importAlias =
      ((addImport src importPath importAlias).1,
        ⟨true, importExistsMsg importPath, ""⟩) ∧
    (src.imports.any (fun im => im.path = importPath) = false →
      (addImport src importPath importAlias).2 =
        ⟨true, importAddedMsg importPath, ""⟩) := by
  refine ⟨?_, ?_, ?_⟩
  · intro hpres
    simp [addImport, hpres]
  · by_cases hpres : src.imports.any (fun im => im.path = importPath) = true
    · simp [addImport, hpres]
    · have hins := insertImport_mem_path src.imports ⟨importAlias, importPath⟩
      simp [addImport, hpres, hins]
  · intro habs
    simp [addImport, habs]

/-- Witness for C6 on a file with an empty import block: adding "fmt" twice
succeeds first and no-ops second. -/
theorem addImport_idempotent_witness :
    ((GoSource.mk [] []).imports.any (fun im => im.path = "fmt") = true →
      addImport ⟨[], []⟩ "fmt" none =
        (⟨[], []⟩, ⟨true, importExistsMsg "fmt", ""⟩)) ∧
    addImport (addImport ⟨[], []⟩ "fmt" none).1 "fmt" none =
      ((addImport ⟨[], []⟩ "fmt" none).1, ⟨true, importExistsMsg "fmt", ""⟩) ∧
    ((GoSource.mk [] []).imports.any (fun im => im.path = "fmt") = false →
      (addImport ⟨[], []⟩ "fmt" none).2 = ⟨true, importAddedMsg "fmt", ""⟩) :=
  addImport_idempotent ⟨[], []⟩ "fmt" none

/-! Claim C7: the candidate set of the recursive walks. -/

theorem collectChildren_mem (q : String) (cs : List FsTree) :
    ∀ p : String,
      (∀ t ∈ cs, ∀ r : String,
        (q ∈ (collectFiles r t).map Prod.fst ↔ KeptFile r t q)) →
      ((q ∈ (collectChildren p cs).map Prod.fst) ↔
        ∃ t ∈ cs, KeptFile (p ++ "/" ++ treeName t) t q) := by
  induction cs with
  | nil =>
    intro p _
    simp [collectChildren]
  | cons t ts ihl =>
    intro p ih
    have heq : collectChildren p (t :: ts) =
        collectFiles (p ++ "/" ++ treeName t) t ++ collectChildren p ts := rfl
    rw [heq]
    simp only [List.map_append, List.mem_append]
    rw [ih t (List.mem_cons_self t ts) (p ++ "/" ++ treeName t),
      ihl p (fun t2 ht2 r => ih t2 (List.mem_cons_of_mem t ht2) r)]
    constructor
    · rintro (hk | ⟨t2, ht2, hk⟩)
      · exact ⟨t, List.mem_cons_self t ts, hk⟩
      · exact ⟨t2, List.mem_cons_of_mem t ht2, hk⟩
    · rintro ⟨t2, ht2, hk⟩
      rcases List.mem_cons.mp ht2 with rfl | ht2
      · exact Or.inl hk
      · exact Or.inr ⟨t2, ht2, hk⟩

theorem collectFiles_mem_aux (q : String) :
    ∀ (N : Nat) (t : FsTree), sizeOf t ≤ N → ∀ p : String,
      (q ∈ (collectFiles p t).map Prod.fst ↔ KeptFile p t q) := by
  intro N
  induction N with
  | zero =>
    intro t ht
    exfalso
    cases t <;> simp at ht
  | succ N ih =>
    intro t ht p
    cases t with
    | file n c =>
      have heq : collectFiles p (.file n c) = [(p, c)] := rfl
      rw [heq]
      constructor
      · intro hq
        simp only [List.map_cons, List.map_nil, List.mem_singleton] at hq
        subst hq
        exact KeptFile.file _ n c
      · intro hk
        cases hk
        simp
    | dir n cs =>
      by_cases hn : n ∈ skipNames
      · have heq : collectFiles p (.dir n cs) = [] := by
          simp [collectFiles, hn]
        rw [heq]
        constructor
        · intro hq
          simp at hq
        · intro hk
          cases hk with
          | dir _ _ _ _ _ hnn _ _ => exact absurd hn hnn
      · have heq : collectFiles p (.dir n cs) = collectChildren p cs := by
          simp [collectFiles, hn]
        rw [heq]
        have hsz : ∀ t2 ∈ cs, ∀ r : String,
            (q ∈ (collectFiles r t2).map Prod.fst ↔ KeptFile r t2 q) := by
          intro t2 ht2 r
          apply ih
          have h1 : sizeOf t2 < sizeOf cs := List.sizeOf_lt_of_mem ht2
          have h2 : sizeOf (FsTree.dir n cs) = 1 + sizeOf n + sizeOf cs := by simp
          omega
        rw [collectChildren_mem q cs p hsz]
        constructor
        · rintro ⟨t2, ht2, hk⟩
          exact KeptFile.dir p n cs t2 q hn ht2 hk
        · intro hk
          cases hk with
          | dir _ _ _ t2 _ hnn ht2 hk2 => exact ⟨t2, ht2, hk2⟩

/-- C7 (amended to the part_003 walk, `collectFiles`): when no glob pattern
is given, the candidate set of the recursive walk is exactly the set of files
under the root whose path to the root passes through no directory (the root
included) with a base name in the fixed skip-list — every skip-named
directory is pruned with its whole subtree, and no other file is excluded by
the skip mechanism. -/
theorem collectFiles_mem (p : String) (t : FsTree) (q : String) :
    q ∈ (collectFiles p t).map Prod.fst ↔ KeptFile p t q :=
  collectFiles_mem_aux q (sizeOf t) t le_rfl p

/-- Tree of the C7 counterexample: a root directory r holding one file whose
name merely CONTAINS "vendor" as a substring. -/
def exC7Tree : FsTree := .dir "r" [.file "avendor.go" "x".data]

/-- C7 counterexample: the serial walk of searchfiles.go skips any path that
contains a skip-list entry as a substring, so it excludes the file
r/avendor.go even though none of its ancestor directories has a base name in
the skip-list; the claimed characterisation of the candidate set fails for
that walk. -/
theorem walkCollectSub_excludes_kept_file :
    KeptFile "r" exC7Tree "r/avendor.go" ∧
    "r/avendor.go" ∉ walkCollectSub "r" exC7Tree := by
  constructor
  · refine KeptFile.dir "r" "r" [.file "avendor.go" "x".data]
      (.file "avendor.go" "x".data) "r/avendor.go" (by decide)
      (List.mem_cons_self _ _) ?_
    have hp : "r" ++ "/" ++ treeName (FsTree.file "avendor.go" "x".data) =
        "r/avendor.go" := rfl
    rw [hp]
    exact KeptFile.file _ _ _
  · decide

end Goforai


